import Mathlib

/-!
# Area-biased non-maximum suppression (`nms_module_optimized.cpp`)

A shallow embedding of the two functions of `src/nms/nms_module_optimized.cpp`:

* `compute_iou`, the overlap metric (intersection area over the smaller box area), and
* `nms_largest_box_optimized`, the suppression engine.

Modelling choices.

* `float` is modelled by exact arithmetic: every definition is generic in a linearly ordered
  field `K` (so the theorems hold over the reals) and is executable at `K = ℚ`.
  Rounding, infinities and NaN are outside the model.
* A box record (`std::vector<float>`) is a `List K`; the box collection is a `List (List K)`.
* `throw std::invalid_argument` is the value `Except.error NmsError.invalid_argument`.
* The `int` indices are natural numbers (the collection is assumed to hold fewer than `2^31`
  boxes, so that `static_cast<int>(i)` is the identity).
* `std::sort` is not part of the repository and leaves the relative order of equivalent elements
  unspecified.  The engine therefore takes the sorting routine as a parameter; theorems assume
  only the library contract `SortContract` (the output is a permutation of the input and no later
  element compares before an earlier one).  `insertion_sort` is one executable routine that meets
  the contract.
-/

variable {K : Type} [LinearOrderedField K]

/-! ## Overlap metric -/

/-- Overlap of two boxes: intersection area divided by the smaller of the two box areas
(lines 13-34 of the source). -/
def compute_iou (x1_a y1_a x2_a y2_a x1_b y1_b x2_b y2_b : K) : K :=
  let xx1 := max x1_a x1_b
  let yy1 := max y1_a y1_b
  let xx2 := min x2_a x2_b
  let yy2 := min y2_a y2_b
  let w := max 0 (xx2 - xx1 + 1)
  let h := max 0 (yy2 - yy1 + 1)
  let inter := w * h
  let area_a := (x2_a - x1_a + 1) * (y2_a - y1_a + 1)
  let area_b := (x2_b - x1_b + 1) * (y2_b - y1_b + 1)
  let min_area := min area_a area_b
  if min_area ≤ 0 then 0 else inter / min_area

/-! ## Suppression engine -/

/-- The only failure of the engine: `std::invalid_argument`. -/
inductive NmsError where
  | invalid_argument
  deriving DecidableEq, Repr

/-- The five working vectors `x1`, `y1`, `x2`, `y2`, `areas` of the engine. -/
structure Columns (K : Type) where
  x1 : List K
  y1 : List K
  x2 : List K
  y2 : List K
  areas : List K

/-- The first loop of the engine (lines 53-62): every record is checked for at least four
coordinates, then split into the coordinate vectors, and its area is computed.  The first
malformed record aborts the loop. -/
def load_boxes : List (List K) → Except NmsError (Columns K)
  | [] => .ok ⟨[], [], [], [], []⟩
  | box :: rest =>
    match box with
    | c0 :: c1 :: c2 :: c3 :: _ =>
      match load_boxes rest with
      | .ok c =>
        .ok ⟨c0 :: c.x1, c1 :: c.y1, c2 :: c.x2, c3 :: c.y2,
          ((c2 - c0 + 1) * (c3 - c1 + 1)) :: c.areas⟩
      | .error e => .error e
    | _ => .error .invalid_argument

/-- The inner `for` loop (lines 82-93): the candidates after `current` that go on to the next
round, in their order. -/
def filter_remaining (c : Columns K) (overlap_thresh : K) (current : Nat) : List Nat → List Nat
  | [] => []
  | idx :: rest =>
    let overlap := compute_iou (c.x1.getD current 0) (c.y1.getD current 0)
      (c.x2.getD current 0) (c.y2.getD current 0)
      (c.x1.getD idx 0) (c.y1.getD idx 0) (c.x2.getD idx 0) (c.y2.getD idx 0)
    if overlap ≤ overlap_thresh then
      if c.areas.getD idx 0 > c.areas.getD current 0 then
        idx :: filter_remaining c overlap_thresh current rest
      else filter_remaining c overlap_thresh current rest
    else filter_remaining c overlap_thresh current rest

/-- The `while` loop (lines 75-97): `indices` is the working list, `keep` the output built so
far.  Each round moves the head of the list to `keep` and filters the rest. -/
def nms_loop (c : Columns K) (overlap_thresh : K) (indices : List Nat) (keep : List Nat) :
    List Nat :=
  match indices with
  | [] => keep
  | current :: rest =>
    nms_loop c overlap_thresh (filter_remaining c overlap_thresh current rest) (keep ++ [current])
termination_by indices.length
decreasing_by
  simp only [List.length_cons]
  refine Nat.lt_succ_of_le ?_
  induction rest with
  | nil => simp [filter_remaining]
  | cons idx rest ih =>
    simp only [filter_remaining]
    split_ifs <;> simp only [List.length_cons] <;> omega

/-- The engine (lines 36-100).  `sort comp l` stands for `std::sort` applied to `l` with the
comparator `comp`. -/
def nms_largest_box_optimized (sort : (Nat → Nat → Bool) → List Nat → List Nat)
    (boxes_input : List (List K)) (overlap_thresh : K) : Except NmsError (List Nat) :=
  if boxes_input.isEmpty then .ok []
  else
    let num_boxes := boxes_input.length
    match load_boxes boxes_input with
    | .error e => .error e
    | .ok c =>
      let indices := List.range num_boxes
      let indices := sort (fun a b => decide (c.areas.getD a 0 > c.areas.getD b 0)) indices
      .ok (nms_loop c overlap_thresh indices [])

/-! ## The contract of `std::sort` -/

/-- The requirement `std::sort` puts on its comparator: a strict weak ordering. -/
structure StrictWeakOrdering (comp : Nat → Nat → Bool) : Prop where
  irrefl : ∀ a, comp a a = false
  trans : ∀ a b c, comp a b = true → comp b c = true → comp a c = true
  incomp_trans : ∀ a b c, comp a b = false → comp b a = false →
    comp b c = false → comp c b = false → comp a c = false ∧ comp c a = false

/-- What `std::sort` guarantees for a strict weak ordering: the result is a rearrangement of the
input in which no element compares before an element placed ahead of it. -/
def SortContract (sort : (Nat → Nat → Bool) → List Nat → List Nat) : Prop :=
  ∀ comp l, StrictWeakOrdering comp →
    (sort comp l).Perm l ∧ (sort comp l).Pairwise (fun a b => comp b a = false)

/-- An executable sorting routine (stable insertion sort) meeting `SortContract`. -/
def insertion_sort (comp : Nat → Nat → Bool) (l : List Nat) : List Nat :=
  List.insertionSort (fun a b => comp b a = false) l

/-! ## Vocabulary for the statements -/

/-- Coordinate `k` of box `i` of the input. -/
def coord (boxes : List (List K)) (i k : Nat) : K := (boxes.getD i []).getD k 0

/-- Area `(x2 - x1 + 1) * (y2 - y1 + 1)` of box `i` of the input. -/
def box_area (boxes : List (List K)) (i : Nat) : K :=
  (coord boxes i 2 - coord boxes i 0 + 1) * (coord boxes i 3 - coord boxes i 1 + 1)

/-- Overlap metric of boxes `i` and `j` of the input. -/
def box_iou (boxes : List (List K)) (i j : Nat) : K :=
  compute_iou (coord boxes i 0) (coord boxes i 1) (coord boxes i 2) (coord boxes i 3)
    (coord boxes j 0) (coord boxes j 1) (coord boxes j 2) (coord boxes j 3)

/-- Every record carries at least four coordinates. -/
def WellFormed (boxes : List (List K)) : Prop := ∀ b ∈ boxes, 4 ≤ b.length

/-- The vectors produced by the loading loop hold the first four coordinates of every record
and the area computed from them. -/
structure Loaded (boxes : List (List K)) (c : Columns K) : Prop where
  x1 : ∀ i, c.x1.getD i 0 = coord boxes i 0
  y1 : ∀ i, c.y1.getD i 0 = coord boxes i 1
  x2 : ∀ i, c.x2.getD i 0 = coord boxes i 2
  y2 : ∀ i, c.y2.getD i 0 = coord boxes i 3
  areas : ∀ i, i < boxes.length → c.areas.getD i 0 = box_area boxes i

/-! ## Instrumentation of the loop -/

/-- The working list `indices` at the start of every round of the `while` loop (lines 75-97),
in the order the rounds are run.  Same recursion as `nms_loop`; the number of rounds is the
length of this list. -/
def loop_rounds (c : Columns K) (overlap_thresh : K) (indices : List Nat) : List (List Nat) :=
  match indices with
  | [] => []
  | current :: rest =>
    (current :: rest) :: loop_rounds c overlap_thresh (filter_remaining c overlap_thresh current rest)
termination_by indices.length
decreasing_by
  simp only [List.length_cons]
  refine Nat.lt_succ_of_le ?_
  induction rest with
  | nil => simp [filter_remaining]
  | cons idx rest ih =>
    simp only [filter_remaining]
    split_ifs <;> simp only [List.length_cons] <;> omega

/-! ## The variant with the overlap test alone

The design notes of the specification call the test `areas[idx] > areas[current]` redundant.
The three definitions below are the engine with that test removed from the filter step (a
candidate survives exactly when `overlap <= overlap_thresh`); everything else is unchanged. -/

/-- Filter step of the variant: the survival test is `overlap <= overlap_thresh` only. -/
def filter_remaining_overlap_only (c : Columns K) (overlap_thresh : K) (current : Nat) :
    List Nat → List Nat
  | [] => []
  | idx :: rest =>
    let overlap := compute_iou (c.x1.getD current 0) (c.y1.getD current 0)
      (c.x2.getD current 0) (c.y2.getD current 0)
      (c.x1.getD idx 0) (c.y1.getD idx 0) (c.x2.getD idx 0) (c.y2.getD idx 0)
    if overlap ≤ overlap_thresh then
      idx :: filter_remaining_overlap_only c overlap_thresh current rest
    else filter_remaining_overlap_only c overlap_thresh current rest

/-- Loop of the variant: `nms_loop` over `filter_remaining_overlap_only`. -/
def nms_loop_overlap_only (c : Columns K) (overlap_thresh : K) (indices : List Nat)
    (keep : List Nat) : List Nat :=
  match indices with
  | [] => keep
  | current :: rest =>
    nms_loop_overlap_only c overlap_thresh
      (filter_remaining_overlap_only c overlap_thresh current rest) (keep ++ [current])
termination_by indices.length
decreasing_by
  simp only [List.length_cons]
  refine Nat.lt_succ_of_le ?_
  induction rest with
  | nil => simp [filter_remaining_overlap_only]
  | cons idx rest ih =>
    simp only [filter_remaining_overlap_only]
    split_ifs <;> simp only [List.length_cons] <;> omega

/-- The variant engine: same validation, same areas, same descending-area sort, same loop, with
the overlap test alone in the filter step. -/
def nms_overlap_only (sort : (Nat → Nat → Bool) → List Nat → List Nat)
    (boxes_input : List (List K)) (overlap_thresh : K) : Except NmsError (List Nat) :=
  if boxes_input.isEmpty then .ok []
  else
    let num_boxes := boxes_input.length
    match load_boxes boxes_input with
    | .error e => .error e
    | .ok c =>
      let indices := List.range num_boxes
      let indices := sort (fun a b => decide (c.areas.getD a 0 > c.areas.getD b 0)) indices
      .ok (nms_loop_overlap_only c overlap_thresh indices [])

/-! ## Unfolding the loop -/

theorem filter_remaining_length_le (c : Columns K) (t : K) (current : Nat) (l : List Nat) :
    (filter_remaining c t current l).length ≤ l.length := by
  induction l with
  | nil => simp [filter_remaining]
  | cons idx rest ih =>
    simp only [filter_remaining]
    split_ifs <;> simp only [List.length_cons] <;> omega

theorem nms_loop_nil (c : Columns K) (t : K) (keep : List Nat) :
    nms_loop c t [] keep = keep := by
  rw [nms_loop]

theorem nms_loop_cons (c : Columns K) (t : K) (current : Nat) (rest keep : List Nat) :
    nms_loop c t (current :: rest) keep
      = nms_loop c t (filter_remaining c t current rest) (keep ++ [current]) := by
  rw [nms_loop]

/-! ## The sorting contract is met by insertion sort -/

theorem StrictWeakOrdering.asymm {comp : Nat → Nat → Bool} (h : StrictWeakOrdering comp)
    (a b : Nat) (hab : comp a b = true) : comp b a = false := by
  cases hba : comp b a with
  | false => rfl
  | true =>
    have haa := h.trans a b a hab hba
    rw [h.irrefl a] at haa
    exact absurd haa (by decide)

theorem StrictWeakOrdering.not_lt_trans {comp : Nat → Nat → Bool} (h : StrictWeakOrdering comp)
    (a b c : Nat) (hba : comp b a = false) (hcb : comp c b = false) : comp c a = false := by
  cases hca : comp c a with
  | false => rfl
  | true =>
    have hab : comp a b = false := by
      cases hab : comp a b with
      | false => rfl
      | true => rw [h.trans c a b hca hab] at hcb; exact absurd hcb (by decide)
    have hbc : comp b c = false := by
      cases hbc : comp b c with
      | false => rfl
      | true => rw [h.trans b c a hbc hca] at hba; exact absurd hba (by decide)
    have hac := (h.incomp_trans a b c hab hba hbc hcb).2
    rw [hca] at hac
    exact absurd hac (by decide)

theorem insertion_sort_contract : SortContract insertion_sort := by
  intro comp l h
  haveI : IsTotal Nat (fun a b => comp b a = false) := ⟨fun a b => by
    cases hba : comp b a with
    | false => exact Or.inl rfl
    | true => exact Or.inr (h.asymm b a hba)⟩
  haveI : IsTrans Nat (fun a b => comp b a = false) :=
    ⟨fun a b c hab hbc => h.not_lt_trans a b c hab hbc⟩
  exact ⟨List.perm_insertionSort _ l, List.sorted_insertionSort _ l⟩

/-- The comparator handed to `std::sort` on line 70 is a strict weak ordering. -/
theorem area_comp_strictWeak (areas : List K) :
    StrictWeakOrdering (fun a b => decide (areas.getD a 0 > areas.getD b 0)) where
  irrefl a := by simp
  trans a b c hab hbc := by
    simp only [decide_eq_true_eq, gt_iff_lt] at hab hbc ⊢
    exact lt_trans hbc hab
  incomp_trans a b c h1 h2 h3 h4 := by
    simp only [decide_eq_false_iff_not, gt_iff_lt, not_lt] at h1 h2 h3 h4 ⊢
    exact ⟨le_trans h1 h3, le_trans h4 h2⟩

/-! ## The loading loop -/

theorem load_boxes_error_iff (boxes : List (List K)) :
    load_boxes boxes = .error .invalid_argument ↔ ∃ b ∈ boxes, b.length < 4 := by
  induction boxes with
  | nil => simp [load_boxes]
  | cons box rest ih =>
    match box with
    | [] => simp [load_boxes]
    | [_] => simp [load_boxes]
    | [_, _] => simp [load_boxes]
    | [_, _, _] => simp [load_boxes]
    | c0 :: c1 :: c2 :: c3 :: more =>
      simp only [load_boxes, List.mem_cons, exists_eq_or_imp, List.length_cons]
      rw [← ih]
      cases hr : load_boxes rest with
      | ok c => simp
      | error e => cases e; simp

theorem load_boxes_ok (boxes : List (List K)) (hwf : WellFormed boxes) :
    ∃ c, load_boxes boxes = .ok c ∧ Loaded boxes c := by
  induction boxes with
  | nil =>
    exact ⟨⟨[], [], [], [], []⟩, rfl, by constructor <;> intro i <;> simp [coord]⟩
  | cons box rest ih =>
    have hbox : 4 ≤ box.length := hwf box (List.mem_cons_self _ _)
    obtain ⟨c, hc, hl⟩ := ih (fun b hb => hwf b (List.mem_cons_of_mem _ hb))
    match box, hbox with
    | c0 :: c1 :: c2 :: c3 :: more, _ =>
      refine ⟨⟨c0 :: c.x1, c1 :: c.y1, c2 :: c.x2, c3 :: c.y2,
        ((c2 - c0 + 1) * (c3 - c1 + 1)) :: c.areas⟩, by simp only [load_boxes, hc], ?_⟩
      constructor
      · intro i; cases i with
        | zero => simp [coord]
        | succ j => simpa [coord] using hl.x1 j
      · intro i; cases i with
        | zero => simp [coord]
        | succ j => simpa [coord] using hl.y1 j
      · intro i; cases i with
        | zero => simp [coord]
        | succ j => simpa [coord] using hl.x2 j
      · intro i; cases i with
        | zero => simp [coord]
        | succ j => simpa [coord] using hl.y2 j
      · intro i hi; cases i with
        | zero => simp [coord, box_area]
        | succ j =>
          have hj : j < rest.length := by simpa using hi
          simpa [coord, box_area] using hl.areas j hj

/-! ## Facts about the overlap metric -/

/-- A clamped width times a clamped height never exceeds a positive product of two spans that
dominate them. -/
theorem clamp_mul_le (W H wa ha : K) (hW : W ≤ wa) (hH : H ≤ ha) (hpos : 0 < wa * ha) :
    max 0 W * max 0 H ≤ wa * ha := by
  rcases le_or_lt W 0 with hW0 | hW0
  · rw [max_eq_left hW0, zero_mul]; exact le_of_lt hpos
  rcases le_or_lt H 0 with hH0 | hH0
  · rw [max_eq_left hH0, mul_zero]; exact le_of_lt hpos
  rw [max_eq_right (le_of_lt hW0), max_eq_right (le_of_lt hH0)]
  exact mul_le_mul hW hH (le_of_lt hH0) (le_trans (le_of_lt hW0) hW)

/-- The intersection area is at most the smaller box area whenever that area is positive. -/
theorem inter_le_min_area (x1_a y1_a x2_a y2_a x1_b y1_b x2_b y2_b : K)
    (hpos : 0 < min ((x2_a - x1_a + 1) * (y2_a - y1_a + 1))
      ((x2_b - x1_b + 1) * (y2_b - y1_b + 1))) :
    max 0 (min x2_a x2_b - max x1_a x1_b + 1) * max 0 (min y2_a y2_b - max y1_a y1_b + 1)
      ≤ min ((x2_a - x1_a + 1) * (y2_a - y1_a + 1))
          ((x2_b - x1_b + 1) * (y2_b - y1_b + 1)) := by
  have hx2a := min_le_left x2_a x2_b
  have hx2b := min_le_right x2_a x2_b
  have hy2a := min_le_left y2_a y2_b
  have hy2b := min_le_right y2_a y2_b
  have hx1a := le_max_left x1_a x1_b
  have hx1b := le_max_right x1_a x1_b
  have hy1a := le_max_left y1_a y1_b
  have hy1b := le_max_right y1_a y1_b
  obtain ⟨ha, hb⟩ := lt_min_iff.1 hpos
  refine le_min ?_ ?_
  · exact clamp_mul_le _ _ _ _ (by linarith) (by linarith) ha
  · exact clamp_mul_le _ _ _ _ (by linarith) (by linarith) hb

theorem compute_iou_nonneg (x1_a y1_a x2_a y2_a x1_b y1_b x2_b y2_b : K) :
    0 ≤ compute_iou x1_a y1_a x2_a y2_a x1_b y1_b x2_b y2_b := by
  simp only [compute_iou]
  split_ifs with h
  · exact le_refl _
  · exact div_nonneg (mul_nonneg (le_max_left _ _) (le_max_left _ _)) (le_of_lt (not_le.1 h))

theorem compute_iou_le_one (x1_a y1_a x2_a y2_a x1_b y1_b x2_b y2_b : K) :
    compute_iou x1_a y1_a x2_a y2_a x1_b y1_b x2_b y2_b ≤ 1 := by
  simp only [compute_iou]
  split_ifs with h
  · exact zero_le_one
  · have hpos := not_le.1 h
    rw [div_le_one hpos]
    exact inter_le_min_area _ _ _ _ _ _ _ _ hpos

theorem compute_iou_symm (x1_a y1_a x2_a y2_a x1_b y1_b x2_b y2_b : K) :
    compute_iou x1_a y1_a x2_a y2_a x1_b y1_b x2_b y2_b
      = compute_iou x1_b y1_b x2_b y2_b x1_a y1_a x2_a y2_a := by
  simp only [compute_iou]
  rw [max_comm x1_a x1_b, max_comm y1_a y1_b, min_comm x2_a x2_b, min_comm y2_a y2_b,
    min_comm ((x2_a - x1_a + 1) * (y2_a - y1_a + 1))]

/-! ## The filter step and the loop -/

theorem mem_filter_remaining (c : Columns K) (t : K) (current idx : Nat) (l : List Nat)
    (h : idx ∈ filter_remaining c t current l) :
    idx ∈ l ∧
      compute_iou (c.x1.getD current 0) (c.y1.getD current 0) (c.x2.getD current 0)
        (c.y2.getD current 0) (c.x1.getD idx 0) (c.y1.getD idx 0) (c.x2.getD idx 0)
        (c.y2.getD idx 0) ≤ t ∧
      c.areas.getD idx 0 > c.areas.getD current 0 := by
  induction l with
  | nil => simp [filter_remaining] at h
  | cons a rest ih =>
    simp only [filter_remaining] at h
    split_ifs at h with h1 h2
    · rcases List.mem_cons.1 h with rfl | h
      · exact ⟨List.mem_cons_self _ _, h1, h2⟩
      · exact ⟨List.mem_cons_of_mem _ (ih h).1, (ih h).2⟩
    · exact ⟨List.mem_cons_of_mem _ (ih h).1, (ih h).2⟩
    · exact ⟨List.mem_cons_of_mem _ (ih h).1, (ih h).2⟩

/-- When no candidate is strictly larger than `current`, the filter step keeps nothing. -/
theorem filter_remaining_eq_nil (c : Columns K) (t : K) (current : Nat) (l : List Nat)
    (h : ∀ idx ∈ l, ¬ c.areas.getD idx 0 > c.areas.getD current 0) :
    filter_remaining c t current l = [] := by
  apply List.eq_nil_iff_forall_not_mem.2
  intro idx hidx
  have hm := mem_filter_remaining c t current idx l hidx
  exact h idx hm.1 hm.2.2

/-- On a list in non-increasing area order the loop runs one round and keeps only the head. -/
theorem nms_loop_sorted (c : Columns K) (t : K) (current : Nat) (rest keep : List Nat)
    (h : (current :: rest).Pairwise
      (fun a b => decide (c.areas.getD b 0 > c.areas.getD a 0) = false)) :
    nms_loop c t (current :: rest) keep = keep ++ [current] := by
  rw [nms_loop_cons, filter_remaining_eq_nil, nms_loop_nil]
  intro idx hidx
  have := (List.pairwise_cons.1 h).1 idx hidx
  simpa using this

/-- Loop invariant behind the threshold guarantee, for an arbitrary working list: an index
enters `keep` only after passing the overlap test against every index kept before it. -/
theorem nms_loop_pairwise (c : Columns K) (t : K) (R : Nat → Nat → Prop)
    (hR : ∀ a b, compute_iou (c.x1.getD a 0) (c.y1.getD a 0) (c.x2.getD a 0) (c.y2.getD a 0)
      (c.x1.getD b 0) (c.y1.getD b 0) (c.x2.getD b 0) (c.y2.getD b 0) ≤ t → R a b)
    (indices keep : List Nat) (hk : keep.Pairwise R)
    (hki : ∀ k ∈ keep, ∀ i ∈ indices, R k i) :
    (nms_loop c t indices keep).Pairwise R := by
  generalize hn : indices.length = n
  induction n using Nat.strong_induction_on generalizing indices keep with
  | _ n ih =>
    match indices with
    | [] => simpa [nms_loop_nil] using hk
    | current :: rest =>
      rw [nms_loop_cons]
      refine ih _ ?_ _ _ ?_ ?_ rfl
      · rw [← hn]
        exact Nat.lt_succ_of_le (filter_remaining_length_le c t current rest)
      · rw [List.pairwise_append]
        refine ⟨hk, List.pairwise_singleton _ _, ?_⟩
        intro a ha b hb
        rw [List.mem_singleton] at hb
        subst hb
        exact hki a ha _ (List.mem_cons_self _ _)
      · intro k hk2 i hi
        have hm := mem_filter_remaining c t current i rest hi
        rcases List.mem_append.1 hk2 with hk3 | hk3
        · exact hki k hk3 i (List.mem_cons_of_mem _ hm.1)
        · rw [List.mem_singleton] at hk3
          subst hk3
          exact hR _ _ hm.2.1

/-! ## The engine on well-formed input -/

theorem nms_empty (sort : (Nat → Nat → Bool) → List Nat → List Nat) (t : K) :
    nms_largest_box_optimized sort ([] : List (List K)) t = .ok [] := by
  simp [nms_largest_box_optimized]

theorem nms_of_load_ok (sort : (Nat → Nat → Bool) → List Nat → List Nat)
    (boxes : List (List K)) (t : K) (c : Columns K) (hne : boxes ≠ [])
    (hc : load_boxes boxes = .ok c) :
    nms_largest_box_optimized sort boxes t
      = .ok (nms_loop c t
          (sort (fun a b => decide (c.areas.getD a 0 > c.areas.getD b 0))
            (List.range boxes.length)) []) := by
  simp [nms_largest_box_optimized, hne, hc]

/-- On a non-empty well-formed input the sorted index list has a head `current`, the loop stops
after its first round, and the result is `[current]`. -/
theorem nms_wellFormed (sort : (Nat → Nat → Bool) → List Nat → List Nat)
    (hsort : SortContract sort) (boxes : List (List K)) (t : K)
    (hwf : WellFormed boxes) (hne : boxes ≠ []) :
    ∃ c current rest, load_boxes boxes = .ok c ∧ Loaded boxes c ∧
      sort (fun a b => decide (c.areas.getD a 0 > c.areas.getD b 0)) (List.range boxes.length)
        = current :: rest ∧
      (current :: rest).Perm (List.range boxes.length) ∧
      current < boxes.length ∧
      (∀ i, i < boxes.length → box_area boxes i ≤ box_area boxes current) ∧
      nms_largest_box_optimized sort boxes t = .ok [current] := by
  obtain ⟨c, hc, hl⟩ := load_boxes_ok boxes hwf
  obtain ⟨hperm, hsorted⟩ := hsort _ (List.range boxes.length) (area_comp_strictWeak c.areas)
  cases hs : sort (fun a b => decide (c.areas.getD a 0 > c.areas.getD b 0))
      (List.range boxes.length) with
  | nil =>
    rw [hs] at hperm
    have := hperm.length_eq
    simp at this
    exact absurd (List.length_eq_zero.1 this.symm) hne
  | cons current rest =>
    rw [hs] at hperm hsorted
    have hcur : current < boxes.length := by
      have := hperm.subset (List.mem_cons_self _ _)
      simpa using this
    refine ⟨c, current, rest, hc, hl, hs, hperm, hcur, ?_, ?_⟩
    · intro i hi
      have hmem : i ∈ current :: rest := hperm.symm.subset (List.mem_range.2 hi)
      rcases List.mem_cons.1 hmem with rfl | hmem
      · exact le_refl _
      · have := (List.pairwise_cons.1 hsorted).1 i hmem
        simp only [decide_eq_false_iff_not, gt_iff_lt, not_lt] at this
        rwa [hl.areas i hi, hl.areas current hcur] at this
    · rw [nms_of_load_ok sort boxes t c hne hc, hs, nms_loop_sorted c t current rest [] hsorted]
      rfl

/-- When one box is strictly larger than every other, the engine returns exactly its index,
whatever the threshold and however the sort orders equal areas. -/
theorem nms_eq_of_strict_max (sort : (Nat → Nat → Bool) → List Nat → List Nat)
    (hsort : SortContract sort) (boxes : List (List K)) (t : K) (hwf : WellFormed boxes)
    (k : Nat) (hk : k < boxes.length)
    (hmax : ∀ i, i < boxes.length → i ≠ k → box_area boxes i < box_area boxes k) :
    nms_largest_box_optimized sort boxes t = .ok [k] := by
  have hne : boxes ≠ [] := by
    intro h
    rw [h] at hk
    exact Nat.not_lt_zero _ hk
  obtain ⟨c, current, rest, -, -, -, -, hcur, hle, hres⟩ :=
    nms_wellFormed sort hsort boxes t hwf hne
  have hck : current = k := by
    by_contra hck
    exact absurd (hmax current hcur hck) (not_lt.2 (hle k hk))
  rw [hres, hck]

/-! ## Error handling -/

/-- C1: the engine fails with the invalid-argument error if and only if some box record of the
input has fewer than four coordinates, for every threshold, every position of the malformed
record and every content of the other records (and for every sorting routine); and when such a
record is present no Kept Set at all is returned. -/
theorem C1_invalid_argument_iff_malformed (sort : (Nat → Nat → Bool) → List Nat → List Nat)
    (boxes_input : List (List K)) (overlap_thresh : K) :
    (nms_largest_box_optimized sort boxes_input overlap_thresh = .error .invalid_argument
        ↔ ∃ b ∈ boxes_input, b.length < 4) ∧
      ((∃ b ∈ boxes_input, b.length < 4) →
        ∀ keep, nms_largest_box_optimized sort boxes_input overlap_thresh ≠ .ok keep) := by
  have key : nms_largest_box_optimized sort boxes_input overlap_thresh
      = .error .invalid_argument ↔ ∃ b ∈ boxes_input, b.length < 4 := by
    rw [← load_boxes_error_iff]
    cases boxes_input with
    | nil => simp [nms_largest_box_optimized, load_boxes]
    | cons box rest =>
      cases hl : load_boxes (box :: rest) with
      | ok c => simp [nms_largest_box_optimized, hl]
      | error e => cases e; simp [nms_largest_box_optimized, hl]
  refine ⟨key, fun hbad keep hok => ?_⟩
  rw [key.2 hbad] at hok
  exact absurd hok (by simp)

/-! ## Shape of the Kept Set -/

/-- C2: for `n > 0` boxes that all have at least four coordinates and for every threshold, the
engine returns a Kept Set without repeated index, whose indices all lie in `0..n-1`, and whose
length is at least 1 and at most `n`. -/
theorem C2_kept_set_shape (sort : (Nat → Nat → Bool) → List Nat → List Nat)
    (hsort : SortContract sort) (boxes_input : List (List K)) (overlap_thresh : K)
    (hn : 0 < boxes_input.length) (hwf : WellFormed boxes_input) :
    ∃ keep, nms_largest_box_optimized sort boxes_input overlap_thresh = .ok keep ∧
      keep.Nodup ∧ (∀ i ∈ keep, i < boxes_input.length) ∧
      1 ≤ keep.length ∧ keep.length ≤ boxes_input.length := by
  obtain ⟨c, current, rest, -, -, -, -, hcur, -, hres⟩ :=
    nms_wellFormed sort hsort boxes_input overlap_thresh hwf (List.length_pos.1 hn)
  refine ⟨[current], hres, List.nodup_singleton _, ?_, le_refl _, hn⟩
  intro i hi
  rw [List.mem_singleton] at hi
  rw [hi]
  exact hcur

theorem C2_kept_set_shape_witness :
    SortContract insertion_sort ∧
      0 < [[(0 : ℚ), 0, 4, 4], [1, 1, 9, 9], [20, 20, 21, 21, 7]].length ∧
      WellFormed [[(0 : ℚ), 0, 4, 4], [1, 1, 9, 9], [20, 20, 21, 21, 7]] ∧
      ∃ keep, nms_largest_box_optimized insertion_sort
          [[(0 : ℚ), 0, 4, 4], [1, 1, 9, 9], [20, 20, 21, 21, 7]] (1 / 2) = .ok keep ∧
        keep.Nodup ∧
        (∀ i ∈ keep, i < [[(0 : ℚ), 0, 4, 4], [1, 1, 9, 9], [20, 20, 21, 21, 7]].length) ∧
        1 ≤ keep.length ∧
        keep.length ≤ [[(0 : ℚ), 0, 4, 4], [1, 1, 9, 9], [20, 20, 21, 21, 7]].length :=
  ⟨insertion_sort_contract, by decide, by simp [WellFormed],
    C2_kept_set_shape insertion_sort insertion_sort_contract _ _ (by decide)
      (by simp [WellFormed])⟩

/-! ## Disjoint boxes and the threshold boundary -/

/-- C3 (evaluation at a failing input): the boxes `(10,10,20,20)` and `(0,0,1,1)` have overlap
metric 0 in both orders and the threshold `1/2` is non-negative, yet for every sorting routine
that meets the contract of `std::sort` the engine returns `[0]` only: the disjoint smaller box is
dropped instead of being kept. -/
theorem C3_disjoint_box_dropped :
    box_iou [[(10 : ℚ), 10, 20, 20], [0, 0, 1, 1]] 0 1 = 0 ∧
      box_iou [[(10 : ℚ), 10, 20, 20], [0, 0, 1, 1]] 1 0 = 0 ∧
      (0 : ℚ) ≤ 1 / 2 ∧
      ∀ sort, SortContract sort →
        nms_largest_box_optimized sort [[(10 : ℚ), 10, 20, 20], [0, 0, 1, 1]] (1 / 2)
          = .ok [0] := by
  refine ⟨by norm_num [box_iou, coord, compute_iou], by norm_num [box_iou, coord, compute_iou],
    by norm_num, fun sort hsort => ?_⟩
  refine nms_eq_of_strict_max sort hsort _ _ (by simp [WellFormed]) 0 (by decide) ?_
  intro i hi hne
  have hi2 : i < 2 := hi
  interval_cases i
  · exact absurd rfl hne
  · norm_num [box_area, coord]

/-- C4 (evaluation at a failing input): the boxes `(0,0,9,9)` and `(8,0,11,4)` have areas 100
and 20 and overlap metric exactly `1/2`; with threshold `1/2` the engine returns `[0]` for every
sorting routine that meets the contract of `std::sort`, so the smaller box is suppressed although
its overlap does not exceed the threshold. -/
theorem C4_boundary_box_dropped :
    box_area [[(0 : ℚ), 0, 9, 9], [8, 0, 11, 4]] 0 = 100 ∧
      box_area [[(0 : ℚ), 0, 9, 9], [8, 0, 11, 4]] 1 = 20 ∧
      box_iou [[(0 : ℚ), 0, 9, 9], [8, 0, 11, 4]] 0 1 = 1 / 2 ∧
      ∀ sort, SortContract sort →
        nms_largest_box_optimized sort [[(0 : ℚ), 0, 9, 9], [8, 0, 11, 4]] (1 / 2)
          = .ok [0] := by
  refine ⟨by norm_num [box_area, coord], by norm_num [box_area, coord],
    by norm_num [box_iou, coord, compute_iou], fun sort hsort => ?_⟩
  refine nms_eq_of_strict_max sort hsort _ _ (by simp [WellFormed]) 0 (by decide) ?_
  intro i hi hne
  have hi2 : i < 2 := hi
  interval_cases i
  · exact absurd rfl hne
  · norm_num [box_area, coord]

/-- C5: for every input of well-formed boxes and every threshold, the engine returns a Kept Set
in which any two distinct indices `i` and `j` satisfy `compute_iou(box_i, box_j) <= overlap_thresh`
(for every sorting routine). -/
theorem C5_kept_pairs_within_threshold (sort : (Nat → Nat → Bool) → List Nat → List Nat)
    (boxes_input : List (List K)) (overlap_thresh : K) (hwf : WellFormed boxes_input) :
    ∃ keep, nms_largest_box_optimized sort boxes_input overlap_thresh = .ok keep ∧
      ∀ i ∈ keep, ∀ j ∈ keep, i ≠ j → box_iou boxes_input i j ≤ overlap_thresh := by
  cases hb : boxes_input with
  | nil => exact ⟨[], nms_empty sort overlap_thresh, by simp⟩
  | cons box rest =>
    rw [← hb]
    have hne : boxes_input ≠ [] := by rw [hb]; simp
    obtain ⟨c, hc, hl⟩ := load_boxes_ok boxes_input hwf
    refine ⟨_, nms_of_load_ok sort boxes_input overlap_thresh c hne hc, ?_⟩
    have hpw := nms_loop_pairwise c overlap_thresh
      (fun a b => box_iou boxes_input a b ≤ overlap_thresh ∧
        box_iou boxes_input b a ≤ overlap_thresh)
      (fun a b h => by
        have h1 : box_iou boxes_input a b ≤ overlap_thresh := by
          simpa only [box_iou, hl.x1, hl.y1, hl.x2, hl.y2] using h
        exact ⟨h1, by rw [box_iou, compute_iou_symm]; exact h1⟩)
      (sort (fun a b => decide (c.areas.getD a 0 > c.areas.getD b 0))
        (List.range boxes_input.length)) [] List.Pairwise.nil (by simp)
    intro i hi j hj hij
    exact (hpw.forall (fun a b h => ⟨h.2, h.1⟩) hi hj hij).1

theorem C5_kept_pairs_within_threshold_witness :
    WellFormed [[(0 : ℚ), 0, 9, 9], [8, 0, 11, 4], [30, 30, 31, 31]] ∧
      ∃ keep, nms_largest_box_optimized insertion_sort
          [[(0 : ℚ), 0, 9, 9], [8, 0, 11, 4], [30, 30, 31, 31]] (1 / 4) = .ok keep ∧
        ∀ i ∈ keep, ∀ j ∈ keep, i ≠ j →
          box_iou [[(0 : ℚ), 0, 9, 9], [8, 0, 11, 4], [30, 30, 31, 31]] i j ≤ 1 / 4 :=
  ⟨by simp [WellFormed],
    C5_kept_pairs_within_threshold insertion_sort _ _ (by simp [WellFormed])⟩

/-! ## Range of the overlap metric -/

/-- C6: for any eight coordinates (no ordering of the corners assumed, inverted and degenerate
boxes included) `compute_iou` returns a value between 0 and 1; in particular the intersection
area never exceeds the smaller of the two unclamped box areas when that area is positive. -/
theorem C6_compute_iou_range (x1_a y1_a x2_a y2_a x1_b y1_b x2_b y2_b : K) :
    0 ≤ compute_iou x1_a y1_a x2_a y2_a x1_b y1_b x2_b y2_b ∧
      compute_iou x1_a y1_a x2_a y2_a x1_b y1_b x2_b y2_b ≤ 1 ∧
      (0 < min ((x2_a - x1_a + 1) * (y2_a - y1_a + 1)) ((x2_b - x1_b + 1) * (y2_b - y1_b + 1)) →
        max 0 (min x2_a x2_b - max x1_a x1_b + 1) * max 0 (min y2_a y2_b - max y1_a y1_b + 1)
          ≤ min ((x2_a - x1_a + 1) * (y2_a - y1_a + 1))
              ((x2_b - x1_b + 1) * (y2_b - y1_b + 1))) :=
  ⟨compute_iou_nonneg _ _ _ _ _ _ _ _, compute_iou_le_one _ _ _ _ _ _ _ _,
    inter_le_min_area _ _ _ _ _ _ _ _⟩

/-- C9: for every threshold the engine applied to the empty box collection returns the empty
Kept Set and does not fail. -/
theorem C9_empty_input (sort : (Nat → Nat → Bool) → List Nat → List Nat) (overlap_thresh : K) :
    nms_largest_box_optimized sort ([] : List (List K)) overlap_thresh = .ok [] :=
  nms_empty sort overlap_thresh

/-- C10: for every input made of exactly one box with at least four coordinates (any
coordinate values) and for every threshold, the engine returns exactly `[0]`. -/
theorem C10_single_box (sort : (Nat → Nat → Bool) → List Nat → List Nat)
    (hsort : SortContract sort) (box : List K) (overlap_thresh : K) (hbox : 4 ≤ box.length) :
    nms_largest_box_optimized sort [box] overlap_thresh = .ok [0] := by
  refine nms_eq_of_strict_max sort hsort _ _ ?_ 0 (by simp) ?_
  · intro b hb
    rw [List.mem_singleton] at hb
    rw [hb]
    exact hbox
  · intro i hi hne
    have hi1 : i < 1 := hi
    exact absurd (Nat.lt_one_iff.1 hi1) hne

theorem C10_single_box_witness :
    SortContract insertion_sort ∧ 4 ≤ [(5 : ℚ), 5, 0, 4, 11].length ∧
      nms_largest_box_optimized insertion_sort [[(5 : ℚ), 5, 0, 4, 11]] (-1) = .ok [0] :=
  ⟨insertion_sort_contract, by decide,
    C10_single_box insertion_sort insertion_sort_contract _ _ (by decide)⟩

/-! ## Rounds of the loop -/

theorem loop_rounds_nil (c : Columns K) (t : K) : loop_rounds c t [] = [] := by
  rw [loop_rounds]

theorem loop_rounds_cons (c : Columns K) (t : K) (current : Nat) (rest : List Nat) :
    loop_rounds c t (current :: rest)
      = (current :: rest) :: loop_rounds c t (filter_remaining c t current rest) := by
  rw [loop_rounds]

/-- The loop runs at most as many rounds as its working list is long. -/
theorem loop_rounds_length_le (c : Columns K) (t : K) (indices : List Nat) :
    (loop_rounds c t indices).length ≤ indices.length := by
  generalize hn : indices.length = n
  induction n using Nat.strong_induction_on generalizing indices with
  | _ n ih =>
    match indices with
    | [] => simp [loop_rounds_nil]
    | current :: rest =>
      rw [loop_rounds_cons, List.length_cons]
      have hlen := filter_remaining_length_le c t current rest
      have hlt : (filter_remaining c t current rest).length < n := by
        rw [← hn, List.length_cons]
        exact Nat.lt_succ_of_le hlen
      have := ih _ hlt _ rfl
      rw [← hn, List.length_cons]
      omega

/-- The Kept Set is `keep` followed by the heads of the rounds: one index per round. -/
theorem nms_loop_eq_heads (c : Columns K) (t : K) (indices keep : List Nat) :
    nms_loop c t indices keep = keep ++ (loop_rounds c t indices).filterMap List.head? := by
  generalize hn : indices.length = n
  induction n using Nat.strong_induction_on generalizing indices keep with
  | _ n ih =>
    match indices with
    | [] => simp [loop_rounds_nil, nms_loop_nil]
    | current :: rest =>
      have hlt : (filter_remaining c t current rest).length < n := by
        rw [← hn, List.length_cons]
        exact Nat.lt_succ_of_le (filter_remaining_length_le c t current rest)
      rw [nms_loop_cons, loop_rounds_cons, ih _ hlt _ _ rfl]
      simp

/-- The loop appends exactly one index to `keep` per round. -/
theorem nms_loop_length (c : Columns K) (t : K) (indices keep : List Nat) :
    (nms_loop c t indices keep).length = keep.length + (loop_rounds c t indices).length := by
  generalize hn : indices.length = n
  induction n using Nat.strong_induction_on generalizing indices keep with
  | _ n ih =>
    match indices with
    | [] => simp [loop_rounds_nil, nms_loop_nil]
    | current :: rest =>
      have hlt : (filter_remaining c t current rest).length < n := by
        rw [← hn, List.length_cons]
        exact Nat.lt_succ_of_le (filter_remaining_length_le c t current rest)
      rw [nms_loop_cons, loop_rounds_cons, ih _ hlt _ _ rfl]
      simp only [List.length_append, List.length_cons, List.length_nil]
      omega

/-- C11: in the suppression loop the list of surviving indices produced by a round is strictly
shorter than the list the round started with (at most the previous length minus one); the loop,
a total function by well-founded recursion on the list length, therefore runs at most as many
rounds as its working list is long, and on an input of `n` well-formed boxes the engine returns
a Kept Set after at most `n` rounds, one kept index per round. -/
theorem C11_loop_terminates (sort : (Nat → Nat → Bool) → List Nat → List Nat)
    (hsort : SortContract sort) (boxes_input : List (List K)) (overlap_thresh : K)
    (hwf : WellFormed boxes_input) :
    (∀ (c : Columns K) (t : K) (current : Nat) (rest : List Nat),
        (filter_remaining c t current rest).length ≤ (current :: rest).length - 1 ∧
        (filter_remaining c t current rest).length < (current :: rest).length) ∧
      (∀ (c : Columns K) (t : K) (indices : List Nat),
        (loop_rounds c t indices).length ≤ indices.length) ∧
      ∃ c keep, load_boxes boxes_input = .ok c ∧
        nms_largest_box_optimized sort boxes_input overlap_thresh = .ok keep ∧
        keep.length = (loop_rounds c overlap_thresh
          (sort (fun a b => decide (c.areas.getD a 0 > c.areas.getD b 0))
            (List.range boxes_input.length))).length ∧
        (loop_rounds c overlap_thresh
          (sort (fun a b => decide (c.areas.getD a 0 > c.areas.getD b 0))
            (List.range boxes_input.length))).length ≤ boxes_input.length := by
  refine ⟨fun c t current rest => ?_, fun c t indices => loop_rounds_length_le c t indices, ?_⟩
  · have := filter_remaining_length_le c t current rest
    simp only [List.length_cons]
    omega
  · obtain ⟨c, hc, -⟩ := load_boxes_ok boxes_input hwf
    have hperm := (hsort (fun a b => decide (c.areas.getD a 0 > c.areas.getD b 0))
      (List.range boxes_input.length) (area_comp_strictWeak c.areas)).1
    have hbound := loop_rounds_length_le c overlap_thresh
      (sort (fun a b => decide (c.areas.getD a 0 > c.areas.getD b 0))
        (List.range boxes_input.length))
    rw [hperm.length_eq, List.length_range] at hbound
    by_cases hne : boxes_input = []
    · subst hne
      refine ⟨c, [], hc, nms_empty sort overlap_thresh, ?_, hbound⟩
      have h0 := Nat.le_zero.1 hbound
      rw [h0]
      rfl
    · refine ⟨c, _, hc, nms_of_load_ok sort boxes_input overlap_thresh c hne hc, ?_, hbound⟩
      rw [nms_loop_length]
      simp

theorem C11_loop_terminates_witness :
    SortContract insertion_sort ∧
      WellFormed [[(0 : ℚ), 0, 3, 3], [2, 2, 8, 8], [1, 1, 2, 2]] ∧
      ∃ (c : Columns ℚ) (keep : List Nat),
        load_boxes [[(0 : ℚ), 0, 3, 3], [2, 2, 8, 8], [1, 1, 2, 2]] = .ok c ∧
        nms_largest_box_optimized insertion_sort
          [[(0 : ℚ), 0, 3, 3], [2, 2, 8, 8], [1, 1, 2, 2]] (1 / 2) = .ok keep ∧
        keep.length = (loop_rounds c (1 / 2)
          (insertion_sort (fun a b => decide (c.areas.getD a 0 > c.areas.getD b 0))
            (List.range [[(0 : ℚ), 0, 3, 3], [2, 2, 8, 8], [1, 1, 2, 2]].length))).length ∧
        (loop_rounds c (1 / 2)
          (insertion_sort (fun a b => decide (c.areas.getD a 0 > c.areas.getD b 0))
            (List.range [[(0 : ℚ), 0, 3, 3], [2, 2, 8, 8], [1, 1, 2, 2]].length))).length
          ≤ [[(0 : ℚ), 0, 3, 3], [2, 2, 8, 8], [1, 1, 2, 2]].length :=
  ⟨insertion_sort_contract, by simp [WellFormed],
    (C11_loop_terminates insertion_sort insertion_sort_contract _ _
      (by simp [WellFormed])).2.2⟩

/-! ## The guard of the overlap metric -/

theorem nms_loop_overlap_only_nil (c : Columns K) (t : K) (keep : List Nat) :
    nms_loop_overlap_only c t [] keep = keep := by
  rw [nms_loop_overlap_only]

theorem nms_loop_overlap_only_cons (c : Columns K) (t : K) (current : Nat)
    (rest keep : List Nat) :
    nms_loop_overlap_only c t (current :: rest) keep
      = nms_loop_overlap_only c t (filter_remaining_overlap_only c t current rest)
          (keep ++ [current]) := by
  rw [nms_loop_overlap_only]

theorem nms_overlap_only_of_load_ok (sort : (Nat → Nat → Bool) → List Nat → List Nat)
    (boxes : List (List K)) (t : K) (c : Columns K) (hne : boxes ≠ [])
    (hc : load_boxes boxes = .ok c) :
    nms_overlap_only sort boxes t
      = .ok (nms_loop_overlap_only c t
          (sort (fun a b => decide (c.areas.getD a 0 > c.areas.getD b 0))
            (List.range boxes.length)) []) := by
  simp [nms_overlap_only, hne, hc]

theorem perm_pair_cases (l : List Nat) (hp : l.Perm [0, 1]) : l = [0, 1] ∨ l = [1, 0] := by
  have hlen := hp.length_eq
  have hnd : l.Nodup := hp.nodup_iff.2 (by decide)
  match l, hlen, hp, hnd with
  | [a, b], _, hp, hnd =>
    have ha : a ∈ [0, 1] := hp.subset (by simp)
    have hb : b ∈ [0, 1] := hp.subset (by simp)
    have hab : a ≠ b := by
      intro h
      rw [h] at hnd
      simp at hnd
    simp only [List.mem_cons, List.mem_singleton, List.not_mem_nil, or_false] at ha hb
    rcases ha with rfl | rfl <;> rcases hb with rfl | rfl
    · exact absurd rfl hab
    · exact Or.inl rfl
    · exact Or.inr rfl
    · exact absurd rfl hab

/-- Two indices of which the first compares before the second keep their order under any
sorting routine that meets the contract. -/
theorem sort_range_two (sort : (Nat → Nat → Bool) → List Nat → List Nat)
    (hsort : SortContract sort) (comp : Nat → Nat → Bool) (hcomp : StrictWeakOrdering comp)
    (h01 : comp 0 1 = true) : sort comp [0, 1] = [0, 1] := by
  obtain ⟨hperm, hsorted⟩ := hsort comp [0, 1] hcomp
  rcases perm_pair_cases _ hperm with h | h
  · exact h
  · rw [h] at hsorted
    have := (List.pairwise_cons.1 hsorted).1 0 (by simp)
    rw [h01] at this
    exact absurd this (by decide)

/-- C13 (evaluation at a failing input): on the boxes `(0,0,9,9)` and `(20,20,22,22)` (areas 100
and 9, overlap 0) with threshold `3/10`, for every sorting routine that meets the contract of
`std::sort`, the engine returns `[0]` while the variant whose survival test is only
`overlap <= overlap_thresh` returns `[0, 1]`: removing the test `areas[idx] > areas[current]`
changes the Kept Set. -/
theorem C13_area_test_changes_result :
    box_area [[(0 : ℚ), 0, 9, 9], [20, 20, 22, 22]] 0 = 100 ∧
      box_area [[(0 : ℚ), 0, 9, 9], [20, 20, 22, 22]] 1 = 9 ∧
      box_iou [[(0 : ℚ), 0, 9, 9], [20, 20, 22, 22]] 0 1 = 0 ∧
      ∀ sort, SortContract sort →
        nms_largest_box_optimized sort [[(0 : ℚ), 0, 9, 9], [20, 20, 22, 22]] (3 / 10)
            = .ok [0] ∧
          nms_overlap_only sort [[(0 : ℚ), 0, 9, 9], [20, 20, 22, 22]] (3 / 10)
            = .ok [0, 1] := by
  refine ⟨by norm_num [box_area, coord], by norm_num [box_area, coord],
    by norm_num [box_iou, coord, compute_iou], fun sort hsort => ?_⟩
  constructor
  · refine nms_eq_of_strict_max sort hsort _ _ (by simp [WellFormed]) 0 (by decide) ?_
    intro i hi hne
    have hi2 : i < 2 := hi
    interval_cases i
    · exact absurd rfl hne
    · norm_num [box_area, coord]
  · have hc : load_boxes [[(0 : ℚ), 0, 9, 9], [20, 20, 22, 22]]
        = .ok ⟨[0, 20], [0, 20], [9, 22], [9, 22], [100, 9]⟩ := by
      norm_num [load_boxes]
    rw [nms_overlap_only_of_load_ok sort _ _ _ (by simp) hc]
    have hs := sort_range_two sort hsort
      (fun a b => decide (([100, 9] : List ℚ).getD a 0 > ([100, 9] : List ℚ).getD b 0))
      (area_comp_strictWeak _) (by norm_num)
    have hr : List.range [[(0 : ℚ), 0, 9, 9], [20, 20, 22, 22]].length = [0, 1] := by
      simp [List.range, List.range.loop]
    rw [hr, hs]
    norm_num [nms_loop_overlap_only_cons, nms_loop_overlap_only_nil,
      filter_remaining_overlap_only, compute_iou]

/-! ## What the engine returns -/

/-- The loading loop reads the first four coordinates of each record only. -/
theorem load_boxes_congr (b1 b2 : List (List K)) (hlen : b1.length = b2.length)
    (hwf1 : WellFormed b1) (hwf2 : WellFormed b2)
    (hagree : ∀ i, i < b1.length → ∀ k, k < 4 → coord b1 i k = coord b2 i k) :
    load_boxes b1 = load_boxes b2 := by
  induction b1 generalizing b2 with
  | nil =>
    cases b2 with
    | nil => rfl
    | cons y ys => simp at hlen
  | cons x xs ih =>
    cases b2 with
    | nil => simp at hlen
    | cons y ys =>
      have hx : 4 ≤ x.length := hwf1 x (List.mem_cons_self _ _)
      have hy : 4 ≤ y.length := hwf2 y (List.mem_cons_self _ _)
      have hrest : load_boxes xs = load_boxes ys := by
        refine ih ys (by simpa using hlen) (fun b hb => hwf1 b (List.mem_cons_of_mem _ hb))
          (fun b hb => hwf2 b (List.mem_cons_of_mem _ hb)) ?_
        intro i hi k hk
        have := hagree (i + 1) (by simpa using hi) k hk
        simpa [coord] using this
      match x, y, hx, hy, hagree with
      | c0 :: c1 :: c2 :: c3 :: _, d0 :: d1 :: d2 :: d3 :: _, _, _, hagree =>
        have h0 : c0 = d0 := by simpa [coord] using hagree 0 (by simp) 0 (by decide)
        have h1 : c1 = d1 := by simpa [coord] using hagree 0 (by simp) 1 (by decide)
        have h2 : c2 = d2 := by simpa [coord] using hagree 0 (by simp) 2 (by decide)
        have h3 : c3 = d3 := by simpa [coord] using hagree 0 (by simp) 3 (by decide)
        simp only [load_boxes, hrest, h0, h1, h2, h3]

/-- C18: the engine reads only the first four coordinates of each record: two inputs of the same
length whose records all have at least four coordinates and agree, record by record, on their
first four coordinates give equal results for every threshold. -/
theorem C18_trailing_coordinates_ignored (sort : (Nat → Nat → Bool) → List Nat → List Nat)
    (boxes1 boxes2 : List (List K)) (overlap_thresh : K)
    (hlen : boxes1.length = boxes2.length)
    (hwf1 : WellFormed boxes1) (hwf2 : WellFormed boxes2)
    (hagree : ∀ i, i < boxes1.length → ∀ k, k < 4 → coord boxes1 i k = coord boxes2 i k) :
    nms_largest_box_optimized sort boxes1 overlap_thresh
      = nms_largest_box_optimized sort boxes2 overlap_thresh := by
  have hload := load_boxes_congr boxes1 boxes2 hlen hwf1 hwf2 hagree
  have hemp : boxes1.isEmpty = boxes2.isEmpty := by
    cases boxes1 <;> cases boxes2 <;> simp at hlen ⊢
  simp only [nms_largest_box_optimized, hload, hlen, hemp]

theorem C18_trailing_coordinates_ignored_witness :
    [[(0 : ℚ), 0, 3, 3, 99], [1, 1, 2, 2]].length = [[(0 : ℚ), 0, 3, 3], [1, 1, 2, 2, 5, 6]].length ∧
      WellFormed [[(0 : ℚ), 0, 3, 3, 99], [1, 1, 2, 2]] ∧
      WellFormed [[(0 : ℚ), 0, 3, 3], [1, 1, 2, 2, 5, 6]] ∧
      nms_largest_box_optimized insertion_sort [[(0 : ℚ), 0, 3, 3, 99], [1, 1, 2, 2]] (1 / 2)
        = nms_largest_box_optimized insertion_sort [[(0 : ℚ), 0, 3, 3], [1, 1, 2, 2, 5, 6]]
            (1 / 2) :=
  ⟨by decide, by simp [WellFormed], by simp [WellFormed],
    C18_trailing_coordinates_ignored insertion_sort _ _ (1 / 2) (by simp)
      (by simp [WellFormed]) (by simp [WellFormed])
      (by
        intro i hi k hk
        have hi2 : i < 2 := hi
        interval_cases i <;> interval_cases k <;> simp [coord])⟩
